import Mathlib

/-!
Shallow embedding of the fixed-depth negamax search engine of the chess_game
repository (src/chess_minmax.rs, src/chess_minmax/main_evalation.rs and the
repetition guard of src/chess_graphic.rs).  Scores are modelled as unbounded
integers; the 16-bit range discipline of the Rust code is recovered through
explicit bound lemmas.  The external chess rules crate is modelled as an
abstract interface (`ChessLib`), exactly the surface the search consumes:
side to move, legal move enumeration, move application, check detection,
the static evaluator and the position hash.
-/

namespace ChessGame

/-- Side to move, mirroring chess::Color. -/
inductive Color where
  | white
  | black
deriving DecidableEq

/-- Game status, mirroring chess::BoardStatus. -/
inductive BoardStatus where
  | ongoing
  | stalemate
  | checkmate
deriving DecidableEq

/-- Mirrors enum BoundedScore of src/chess_minmax.rs. -/
inductive BoundedScore where
  | lowerBound (v : Int)
  | upperBound (v : Int)
  | exact (v : Int)
deriving DecidableEq

/-- Mirrors struct TranspositionItem of src/chess_minmax.rs. -/
structure TranspositionItem where
  score : BoundedScore
  depth : Nat
deriving DecidableEq

/-- The interface of the external chess rules library as consumed by the
search: board values of type β, moves of type μ.  `evalPieces` stands for
evaluation_pieces_worth_plus, the concrete static evaluator, which the search
treats as a black box. -/
structure ChessLib (β μ : Type) where
  side_to_move : β → Color
  legal_moves : β → List μ
  make_move : β → μ → β
  checkers_empty : β → Bool
  evalPieces : β → Int
  get_hash : β → Nat

/-- Stream model of the mutable random source threaded through the search:
an infinite stream of raw draws together with a cursor. -/
structure Rng where
  seq : Nat → Int
  idx : Nat

/-- Models rng.gen_range(-1, 2): a draw uniform over the three values
-1, 0, 1, determined by the raw stream value. -/
def noiseOf (z : Int) : Int := z % 3 - 1

/-- Draw one value from the random source, advancing the cursor. -/
def rngNext (r : Rng) : Int × Rng :=
  (noiseOf (r.seq r.idx), Rng.mk r.seq (r.idx + 1))

/-- The value i16::MAX of the Rust score domain. -/
def i16Max : Int := 32767

/-- Constant CHECKMATE_SCORE of stats_eval_fn: base score when checkmated. -/
def CHECKMATE_SCORE : Int := 20000

/-- Constant CHECKMATE_DEPTH_SCORE of stats_eval_fn: additional score per
remaining depth, to encourage faster checkmate. -/
def CHECKMATE_DEPTH_SCORE : Int := 500

/-- The side sign computed at the top of negamax: +1 for White to move,
-1 for Black to move. -/
def colorIndex : Color → Int
  | Color.white => 1
  | Color.black => -1

/-- Mirrors stats_eval_fn of src/chess_minmax.rs.  The Ongoing arm is
unreachable! in the Rust code: no caller ever passes it. -/
def stats_eval_fn (stats : BoardStatus) (color_index : Int) (depth : Nat) : Int :=
  match stats with
  | BoardStatus.ongoing => 0
  | BoardStatus.stalemate => 0
  | BoardStatus.checkmate =>
      color_index * -(CHECKMATE_SCORE + CHECKMATE_DEPTH_SCORE * (depth : Int))

/-- Mirrors evaluation_fn of src/chess_minmax.rs: the static evaluation plus
a tiny random perturbation drawn from the shared random source. -/
def evaluation_fn (L : ChessLib β μ) (board : β) (rng : Rng) : Int × Rng :=
  let t := rngNext rng
  (L.evalPieces board + t.1, t.2)

/-- The child loop of negamax (the for loop over child_nodes): fail-soft
running maximum, window update a = max a value, early stop when a >= b.
The recursive call is abstracted as f; rng and cache are threaded. -/
def searchLoop {γ : Type} (f : β → Int → Int → Rng → γ → Int × Rng × γ) :
    List β → Int → Int → Int → Rng → γ → Int × Rng × γ
  | [], value, _, _, rng, cache => (value, rng, cache)
  | child :: rest, value, a, b, rng, cache =>
      let r := f child (-b) (-a) rng cache
      let node_eval := -r.1
      let value2 := max value node_eval
      let a2 := max a value2
      if b ≤ a2 then (value2, r.2.1, r.2.2)
      else searchLoop f rest value2 a2 b r.2.1 r.2.2

/-- Mirrors fn negamax of src/chess_minmax.rs.  The transposition cache is
threaded with the signature of the Rust function, but the cache probe and the
cache store are commented out in the source, so the body never touches it. -/
def negamax {γ : Type} (L : ChessLib β μ) :
    Nat → β → Int → Int → Rng → γ → Int × Rng × γ
  | 0, board, _, _, rng, cache =>
      let e := evaluation_fn L board rng
      (colorIndex (L.side_to_move board) * e.1, e.2, cache)
  | d + 1, board, a, b, rng, cache =>
      let children := (L.legal_moves board).map (L.make_move board)
      let r := searchLoop (negamax L d) children (-i16Max) a b rng cache
      if r.1 = -i16Max then
        let status :=
          if L.checkers_empty board then BoardStatus.stalemate
          else BoardStatus.checkmate
        let ci := colorIndex (L.side_to_move board)
        (ci * stats_eval_fn status ci (d + 1), r.2.1, r.2.2)
      else r

/-- The root loop of negamax_prelude: like searchLoop but records the best
move, replacing the incumbent only on a strictly greater value. -/
def rootLoop {γ : Type} (L : ChessLib β μ) (d : Nat) :
    List (μ × β) → Int → Option μ → Int → Int → Rng → γ →
      Int × Option μ × Rng × γ
  | [], value, best, _, _, rng, cache => (value, best, rng, cache)
  | (mov, child) :: rest, value, best, a, b, rng, cache =>
      let r := negamax L d child (-b) (-a) rng cache
      let node_eval := -r.1
      let vb := if value < node_eval then (node_eval, some mov) else (value, best)
      let a2 := max a vb.1
      if b ≤ a2 then (vb.1, vb.2, r.2.1, r.2.2)
      else rootLoop L d rest vb.1 vb.2 a2 b r.2.1 r.2.2

/-- Mirrors pub fn negamax_prelude of src/chess_minmax.rs.  Alpha starts at
-i16Max (the comment in the source warns that the literal i16::MIN would
overflow on negation), beta at i16Max.  The u8 expression depth - 1 in the
loop body underflows when depth == 0 and a child exists; that panic is
modelled as Except.error. -/
def negamax_prelude {γ : Type} (L : ChessLib β μ) (board : β) (depth : Nat)
    (rng : Rng) (cache : γ) : Except Unit (Option (μ × Int) × Rng × γ) :=
  let child_nodes := (L.legal_moves board).map (fun m => (m, L.make_move board m))
  match child_nodes with
  | [] => Except.ok (none, rng, cache)
  | c :: cs =>
      match depth with
      | 0 => Except.error ()
      | d + 1 =>
          let r := rootLoop L d (c :: cs) (-i16Max) none (-i16Max) i16Max rng cache
          Except.ok (r.2.1.map (fun m => (m, r.1)), r.2.2.1, r.2.2.2)

/-- Projection of a search call onto its domain outcome (the best move and
score), discarding the returned random source and cache states. -/
def searchOutcome {γ : Type} (r : Except Unit (Option (μ × Int) × Rng × γ)) :
    Except Unit (Option (μ × Int)) :=
  r.map (fun t => t.1)

/-- Pure noiseless variant of the child loop, used to state determinism and
the alpha-beta soundness results: identical to searchLoop with the random
source and cache stripped. -/
def searchLoopP (f : β → Int → Int → Int) :
    List β → Int → Int → Int → Int
  | [], value, _, _ => value
  | child :: rest, value, a, b =>
      let node_eval := -f child (-b) (-a)
      let value2 := max value node_eval
      let a2 := max a value2
      if b ≤ a2 then value2
      else searchLoopP f rest value2 a2 b

/-- Pure noiseless variant of negamax (random perturbation fixed to zero). -/
def negamaxP (L : ChessLib β μ) : Nat → β → Int → Int → Int
  | 0, board, _, _ => colorIndex (L.side_to_move board) * L.evalPieces board
  | d + 1, board, a, b =>
      let children := (L.legal_moves board).map (L.make_move board)
      let v := searchLoopP (negamaxP L d) children (-i16Max) a b
      if v = -i16Max then
        let status :=
          if L.checkers_empty board then BoardStatus.stalemate
          else BoardStatus.checkmate
        let ci := colorIndex (L.side_to_move board)
        ci * stats_eval_fn status ci (d + 1)
      else v

/-- Pure noiseless variant of the root loop. -/
def rootLoopP (L : ChessLib β μ) (d : Nat) :
    List (μ × β) → Int → Option μ → Int → Int → Int × Option μ
  | [], value, best, _, _ => (value, best)
  | (mov, child) :: rest, value, best, a, b =>
      let node_eval := -negamaxP L d child (-b) (-a)
      let vb := if value < node_eval then (node_eval, some mov) else (value, best)
      let a2 := max a vb.1
      if b ≤ a2 then vb
      else rootLoopP L d rest vb.1 vb.2 a2 b

/-- Modelled from the spec: plain full-width negamax, the comparison point of
the alpha-beta soundness claim — the same recursion with the window updates
and the a >= b early break removed, and the random perturbation fixed to
zero. -/
def fullNegamax (L : ChessLib β μ) : Nat → β → Int
  | 0, board => colorIndex (L.side_to_move board) * L.evalPieces board
  | d + 1, board =>
      let children := (L.legal_moves board).map (L.make_move board)
      let v := children.foldl (fun acc c => max acc (-fullNegamax L d c)) (-i16Max)
      if v = -i16Max then
        let status :=
          if L.checkers_empty board then BoardStatus.stalemate
          else BoardStatus.checkmate
        let ci := colorIndex (L.side_to_move board)
        ci * stats_eval_fn status ci (d + 1)
      else v

/-- Modelled from the spec: the root loop of the full-width search, keeping
the strict-improvement move selection but no window and no break. -/
def fullRootLoop (L : ChessLib β μ) (d : Nat) :
    List (μ × β) → Int → Option μ → Int × Option μ
  | [], value, best => (value, best)
  | (mov, child) :: rest, value, best =>
      let node_eval := -fullNegamax L d child
      let vb := if value < node_eval then (node_eval, some mov) else (value, best)
      fullRootLoop L d rest vb.1 vb.2

/-- Modelled from the spec: the full-width root search against which the
pruned root search is compared.  Only invoked at depth >= 1. -/
def full_prelude (L : ChessLib β μ) (board : β) (depth : Nat) :
    Option (μ × Int) :=
  let child_nodes := (L.legal_moves board).map (fun m => (m, L.make_move board m))
  match child_nodes, depth with
  | [], _ => none
  | _ :: _, 0 => none
  | c :: cs, d + 1 =>
      let r := fullRootLoop L d (c :: cs) (-i16Max) none
      r.2.map (fun m => (m, r.1))

/-! Basic facts about the noise draw and the side sign. -/

lemma noiseOf_bound (z : Int) : -1 ≤ noiseOf z ∧ noiseOf z ≤ 1 := by
  unfold noiseOf; omega

lemma colorIndex_mul_self (c : Color) : colorIndex c * colorIndex c = 1 := by
  cases c <;> rfl

lemma colorIndex_cases (c : Color) : colorIndex c = 1 ∨ colorIndex c = -1 := by
  cases c <;> simp [colorIndex]

lemma abs_colorIndex_mul (c : Color) (z : Int) : |colorIndex c * z| = |z| := by
  rcases colorIndex_cases c with h | h <;> rw [h] <;> simp

/-! Frame lemmas: the search never rewrites the random stream itself (only the
cursor moves) and never touches the cache (the cache code of the source is
commented out). -/

lemma searchLoop_frame {γ : Type} (f : β → Int → Int → Rng → γ → Int × Rng × γ)
    (hf : ∀ ch a2 b2 rng2 c2, (f ch a2 b2 rng2 c2).2.1.seq = rng2.seq ∧
      (f ch a2 b2 rng2 c2).2.2 = c2) :
    ∀ (l : List β) (value a b : Int) (rng : Rng) (cache : γ),
      (searchLoop f l value a b rng cache).2.1.seq = rng.seq ∧
        (searchLoop f l value a b rng cache).2.2 = cache := by
  intro l
  induction l with
  | nil => intro value a b rng cache; simp [searchLoop]
  | cons child rest ih =>
      intro value a b rng cache
      simp only [searchLoop]
      rcases hf child (-b) (-a) rng cache with ⟨h1, h2⟩
      split
      · exact ⟨h1, h2⟩
      · rcases ih _ _ _ (f child (-b) (-a) rng cache).2.1
          (f child (-b) (-a) rng cache).2.2 with ⟨h3, h4⟩
        exact ⟨h3.trans h1, h4.trans h2⟩

lemma negamax_frame {γ : Type} (L : ChessLib β μ) :
    ∀ (d : Nat) (board : β) (a b : Int) (rng : Rng) (cache : γ),
      (negamax L d board a b rng cache).2.1.seq = rng.seq ∧
        (negamax L d board a b rng cache).2.2 = cache := by
  intro d
  induction d with
  | zero => intro board a b rng cache; simp [negamax, evaluation_fn, rngNext]
  | succ d ih =>
      intro board a b rng cache
      simp only [negamax]
      rcases searchLoop_frame (negamax L d) (fun ch a2 b2 rng2 c2 => ih ch a2 b2 rng2 c2)
        ((L.legal_moves board).map (L.make_move board)) (-i16Max) a b rng cache with ⟨h1, h2⟩
      split <;> exact ⟨h1, h2⟩

lemma rootLoop_frame {γ : Type} (L : ChessLib β μ) (d : Nat) :
    ∀ (l : List (μ × β)) (value : Int) (best : Option μ) (a b : Int)
      (rng : Rng) (cache : γ),
      (rootLoop L d l value best a b rng cache).2.2.1.seq = rng.seq ∧
        (rootLoop L d l value best a b rng cache).2.2.2 = cache := by
  intro l
  induction l with
  | nil => intro value best a b rng cache; simp [rootLoop]
  | cons p rest ih =>
      intro value best a b rng cache
      obtain ⟨mov, child⟩ := p
      simp only [rootLoop]
      rcases negamax_frame L d child (-b) (-a) rng cache with ⟨h1, h2⟩
      split <;> split
      all_goals first
        | exact ⟨h1, h2⟩
        | exact ⟨(ih _ _ _ _ _ _).1.trans h1, (ih _ _ _ _ _ _).2.trans h2⟩

lemma negamax_prelude_cache {γ : Type} (L : ChessLib β μ) (board : β) (depth : Nat)
    (rng : Rng) (cache : γ) (res : Option (μ × Int) × Rng × γ)
    (h : negamax_prelude L board depth rng cache = Except.ok res) :
    res.2.2 = cache := by
  rcases hL : (L.legal_moves board).map (fun m => (m, L.make_move board m)) with _ | ⟨c, cs⟩
  · simp only [negamax_prelude, hL, Except.ok.injEq] at h
    subst h; rfl
  · cases depth with
    | zero => simp [negamax_prelude, hL] at h
    | succ d =>
        simp only [negamax_prelude, hL, Except.ok.injEq] at h
        subst h
        exact (rootLoop_frame L _ _ _ _ _ _ _ _).2

/-! Bound lemmas: the integer values the search produces.  Mbound bounds the
absolute value of any score returned by a depth-d call, under the standing
bound on the static evaluator. -/

/-- Bound on any score a depth-d search call can return: either an evaluator
leaf value (with noise) or a checkmate score for the remaining depth. -/
def Mbound (d : Nat) : Int := max 12767 (20000 + 500 * (d : Int))

lemma Mbound_pos (d : Nat) : 0 < Mbound d := by unfold Mbound; omega

lemma Mbound_mono {d d' : Nat} (h : d ≤ d') : Mbound d ≤ Mbound d' := by
  unfold Mbound; omega

lemma Mbound_le_of_depth {d : Nat} (h : d ≤ 16) : Mbound d ≤ 28000 := by
  unfold Mbound; omega

lemma searchLoop_bound {γ : Type} (f : β → Int → Int → Rng → γ → Int × Rng × γ)
    (K : Int) (hf : ∀ ch a2 b2 rng2 c2, |(f ch a2 b2 rng2 c2).1| ≤ K) :
    ∀ (l : List β) (value a b : Int) (rng : Rng) (cache : γ),
      value ≤ (searchLoop f l value a b rng cache).1 ∧
        (searchLoop f l value a b rng cache).1 ≤ max value K ∧
        ((searchLoop f l value a b rng cache).1 = value ∨
          -K ≤ (searchLoop f l value a b rng cache).1) := by
  intro l
  induction l with
  | nil => intro value a b rng cache; simp [searchLoop]
  | cons child rest ih =>
      intro value a b rng cache
      simp only [searchLoop]
      have he := hf child (-b) (-a) rng cache
      rw [abs_le] at he
      split
      · omega
      · rcases ih (max value (-(f child (-b) (-a) rng cache).1))
          (max a (max value (-(f child (-b) (-a) rng cache).1))) b
          (f child (-b) (-a) rng cache).2.1 (f child (-b) (-a) rng cache).2.2 with
          ⟨ih1, ih2, ih3⟩
        omega

lemma negamax_bound {γ : Type} (L : ChessLib β μ)
    (hE : ∀ x, |L.evalPieces x| ≤ 12766) :
    ∀ (d : Nat) (board : β) (a b : Int) (rng : Rng) (cache : γ),
      |(negamax L d board a b rng cache).1| ≤ Mbound d := by
  intro d
  induction d with
  | zero =>
      intro board a b rng cache
      simp only [negamax, evaluation_fn, rngNext]
      rw [abs_colorIndex_mul]
      have h1 := hE board
      have h3 := noiseOf_bound (rng.seq rng.idx)
      rw [abs_le] at h1 ⊢
      unfold Mbound
      omega
  | succ d ih =>
      intro board a b rng cache
      simp only [negamax]
      rcases searchLoop_bound (negamax L d) (Mbound d)
        (fun ch a2 b2 rng2 c2 => ih ch a2 b2 rng2 c2)
        ((L.legal_moves board).map (L.make_move board)) (-i16Max) a b rng cache with
        ⟨h1, h2, h3⟩
      have hM := Mbound_pos d
      have hMm : Mbound d ≤ Mbound (d + 1) := Mbound_mono (Nat.le_succ d)
      split
      · split <;>
          rcases colorIndex_cases (L.side_to_move board) with hci | hci <;>
          rw [hci] <;>
          simp only [stats_eval_fn, CHECKMATE_SCORE, CHECKMATE_DEPTH_SCORE, Mbound] <;>
          rw [abs_le] <;>
          push_cast <;>
          omega
      · rename_i hne
        rw [abs_le]
        simp only [i16Max] at hne h1 h2 h3 ⊢
        simp only [Mbound] at hM hMm h2 h3 ⊢
        push_cast at *
        omega

lemma rootLoop_bound {γ : Type} (L : ChessLib β μ) (d : Nat) (K : Int)
    (hf : ∀ ch a2 b2 rng2 (c2 : γ), |(negamax L d ch a2 b2 rng2 c2).1| ≤ K) :
    ∀ (l : List (μ × β)) (value : Int) (best : Option μ) (a b : Int)
      (rng : Rng) (cache : γ),
      value ≤ (rootLoop L d l value best a b rng cache).1 ∧
        (rootLoop L d l value best a b rng cache).1 ≤ max value K := by
  intro l
  induction l with
  | nil => intro value best a b rng cache; simp [rootLoop]
  | cons p rest ih =>
      intro value best a b rng cache
      obtain ⟨mov, child⟩ := p
      simp only [rootLoop]
      have he := hf child (-b) (-a) rng cache
      rw [abs_le] at he
      split <;> split
      · dsimp only; omega
      · dsimp only
        rcases ih (-(negamax L d child (-b) (-a) rng cache).1) (some mov)
          (max a (-(negamax L d child (-b) (-a) rng cache).1)) b
          (negamax L d child (-b) (-a) rng cache).2.1
          (negamax L d child (-b) (-a) rng cache).2.2 with ⟨ih1, ih2⟩
        omega
      · dsimp only; omega
      · dsimp only
        rcases ih value best (max a value) b
          (negamax L d child (-b) (-a) rng cache).2.1
          (negamax L d child (-b) (-a) rng cache).2.2 with ⟨ih1, ih2⟩
        omega

/-! Zero-noise bridge: when every draw of the random stream yields a zero
perturbation, the threaded search computes exactly the pure noiseless
search, whatever the cursor position. -/

/-- The random perturbation is fixed to zero: every raw draw of the stream
maps to the noise value 0. -/
def ZeroNoise (s : Nat → Int) : Prop := ∀ n, noiseOf (s n) = 0

lemma searchLoop_pure {γ : Type} (s0 : Nat → Int)
    (f : β → Int → Int → Rng → γ → Int × Rng × γ) (fP : β → Int → Int → Int)
    (hf : ∀ ch a2 b2 rng2 c2, rng2.seq = s0 →
      (f ch a2 b2 rng2 c2).1 = fP ch a2 b2 ∧ (f ch a2 b2 rng2 c2).2.1.seq = s0) :
    ∀ (l : List β) (value a b : Int) (rng : Rng) (cache : γ), rng.seq = s0 →
      (searchLoop f l value a b rng cache).1 = searchLoopP fP l value a b := by
  intro l
  induction l with
  | nil => intro value a b rng cache _; simp [searchLoop, searchLoopP]
  | cons child rest ih =>
      intro value a b rng cache hs
      rcases hf child (-b) (-a) rng cache hs with ⟨hv, hseq⟩
      simp only [searchLoop, searchLoopP, hv]
      split
      · rfl
      · exact ih _ _ _ _ _ hseq

lemma negamax_pure {γ : Type} (L : ChessLib β μ) (s0 : Nat → Int)
    (hZ : ZeroNoise s0) :
    ∀ (d : Nat) (board : β) (a b : Int) (rng : Rng) (cache : γ), rng.seq = s0 →
      (negamax L d board a b rng cache).1 = negamaxP L d board a b := by
  intro d
  induction d with
  | zero =>
      intro board a b rng cache hs
      simp only [negamax, negamaxP, evaluation_fn, rngNext]
      rw [hs, hZ rng.idx, add_zero]
  | succ d ih =>
      intro board a b rng cache hs
      have hloop := searchLoop_pure s0 (negamax L d) (negamaxP L d)
        (fun ch a2 b2 rng2 c2 h2 =>
          ⟨ih ch a2 b2 rng2 c2 h2, ((negamax_frame L d ch a2 b2 rng2 c2).1).trans h2⟩)
        ((L.legal_moves board).map (L.make_move board)) (-i16Max) a b rng cache hs
      simp only [negamax, negamaxP, hloop]
      split
      · rfl
      · exact hloop

lemma rootLoop_pure {γ : Type} (L : ChessLib β μ) (d : Nat) (s0 : Nat → Int)
    (hZ : ZeroNoise s0) :
    ∀ (l : List (μ × β)) (value : Int) (best : Option μ) (a b : Int)
      (rng : Rng) (cache : γ), rng.seq = s0 →
      ((rootLoop L d l value best a b rng cache).1,
        (rootLoop L d l value best a b rng cache).2.1) =
        rootLoopP L d l value best a b := by
  intro l
  induction l with
  | nil => intro value best a b rng cache _; simp [rootLoop, rootLoopP]
  | cons p rest ih =>
      intro value best a b rng cache hs
      obtain ⟨mov, child⟩ := p
      have hv := negamax_pure L s0 hZ d child (-b) (-a) rng cache hs
      have hseq := ((negamax_frame (γ := γ) L d child (-b) (-a) rng cache).1).trans hs
      simp only [rootLoop, rootLoopP, hv]
      split <;> split
      · rfl
      · exact ih _ _ _ _ _ _ hseq
      · rfl
      · exact ih _ _ _ _ _ _ hseq

/-- Pure noiseless variant of negamax_prelude (random perturbation fixed to
zero); the cache plays no role in the original and is dropped. -/
def negamax_preludeP (L : ChessLib β μ) (board : β) (depth : Nat) :
    Except Unit (Option (μ × Int)) :=
  let child_nodes := (L.legal_moves board).map (fun m => (m, L.make_move board m))
  match child_nodes with
  | [] => Except.ok none
  | c :: cs =>
      match depth with
      | 0 => Except.error ()
      | d + 1 =>
          let r := rootLoopP L d (c :: cs) (-i16Max) none (-i16Max) i16Max
          Except.ok (r.2.map (fun m => (m, r.1)))

lemma negamax_prelude_pure {γ : Type} (L : ChessLib β μ) (board : β)
    (depth : Nat) (rng : Rng) (cache : γ) (hZ : ZeroNoise rng.seq) :
    searchOutcome (negamax_prelude L board depth rng cache) =
      negamax_preludeP L board depth := by
  rcases hL : (L.legal_moves board).map (fun m => (m, L.make_move board m)) with _ | ⟨c, cs⟩
  · simp [negamax_prelude, negamax_preludeP, hL, searchOutcome, Except.map]
  · cases depth with
    | zero => simp [negamax_prelude, negamax_preludeP, hL, searchOutcome, Except.map]
    | succ d =>
        have h := rootLoop_pure L d rng.seq hZ (c :: cs) (-i16Max) none (-i16Max)
          i16Max rng cache rfl
        simp only [negamax_prelude, negamax_preludeP, hL, searchOutcome, Except.map]
        rw [Prod.ext_iff] at h
        dsimp only at h
        rw [h.1, h.2]

/-! Helper lemmas about running maxima expressed as folds (the child loop of
the full-width search). -/

lemma foldl_max_le_start (g : β → Int) (l : List β) (s : Int) :
    s ≤ l.foldl (fun acc c => max acc (g c)) s := by
  induction l generalizing s with
  | nil => simp [List.foldl]
  | cons c rest ih =>
      simp only [List.foldl]
      exact le_trans (le_max_left s (g c)) (ih (max s (g c)))

lemma foldl_max_mono (g : β → Int) (l : List β) {s t : Int} (h : s ≤ t) :
    l.foldl (fun acc c => max acc (g c)) s ≤ l.foldl (fun acc c => max acc (g c)) t := by
  induction l generalizing s t with
  | nil => simpa [List.foldl] using h
  | cons c rest ih =>
      simp only [List.foldl]
      exact ih (by omega)

lemma foldl_max_cases (g : β → Int) (l : List β) (s : Int) :
    l.foldl (fun acc c => max acc (g c)) s = s ∨
      ∃ c ∈ l, l.foldl (fun acc c => max acc (g c)) s = g c := by
  induction l generalizing s with
  | nil => left; simp [List.foldl]
  | cons c rest ih =>
      simp only [List.foldl]
      rcases ih (max s (g c)) with h | ⟨c2, hc2, h⟩
      · rcases le_or_lt (g c) s with hgs | hgs
        · left; omega
        · right; exact ⟨c, List.mem_cons_self c rest, by omega⟩
      · right; exact ⟨c2, List.mem_cons_of_mem c hc2, h⟩

lemma foldl_max_elem_le (g : β → Int) {l : List β} {c : β} (hc : c ∈ l) (s : Int) :
    g c ≤ l.foldl (fun acc c => max acc (g c)) s := by
  induction l generalizing s with
  | nil => cases hc
  | cons c1 rest ih =>
      simp only [List.foldl]
      rcases List.mem_cons.mp hc with h | h
      · subst h
        exact le_trans (le_max_right s _) (foldl_max_le_start g rest _)
      · exact ih h _

/-! Bound lemmas for the pure noiseless searches. -/

lemma searchLoopP_start_le (f : β → Int → Int → Int) :
    ∀ (l : List β) (value a b : Int), value ≤ searchLoopP f l value a b := by
  intro l
  induction l with
  | nil => intro value a b; simp [searchLoopP]
  | cons child rest ih =>
      intro value a b
      simp only [searchLoopP]
      split
      · omega
      · exact le_trans (le_max_left _ _) (ih _ _ _)

lemma searchLoopP_first_le (f : β → Int → Int → Int) (c : β) (rest : List β)
    (value a b : Int) :
    max value (-f c (-b) (-a)) ≤ searchLoopP f (c :: rest) value a b := by
  simp only [searchLoopP]
  split
  · omega
  · exact searchLoopP_start_le f rest _ _ _

lemma searchLoopP_bound (f : β → Int → Int → Int) (K : Int)
    (hf : ∀ ch a2 b2, |f ch a2 b2| ≤ K) :
    ∀ (l : List β) (value a b : Int),
      value ≤ searchLoopP f l value a b ∧
        searchLoopP f l value a b ≤ max value K ∧
        (searchLoopP f l value a b = value ∨ -K ≤ searchLoopP f l value a b) := by
  intro l
  induction l with
  | nil => intro value a b; simp [searchLoopP]
  | cons child rest ih =>
      intro value a b
      simp only [searchLoopP]
      have he := hf child (-b) (-a)
      rw [abs_le] at he
      split
      · omega
      · rcases ih (max value (-f child (-b) (-a)))
          (max a (max value (-f child (-b) (-a)))) b with ⟨ih1, ih2, ih3⟩
        omega

lemma negamaxP_bound (L : ChessLib β μ) (hE : ∀ x, |L.evalPieces x| ≤ 12766) :
    ∀ (d : Nat) (board : β) (a b : Int), |negamaxP L d board a b| ≤ Mbound d := by
  intro d
  induction d with
  | zero =>
      intro board a b
      simp only [negamaxP]
      rw [abs_colorIndex_mul]
      have h1 := hE board
      rw [abs_le] at h1 ⊢
      unfold Mbound
      omega
  | succ d ih =>
      intro board a b
      simp only [negamaxP]
      rcases searchLoopP_bound (negamaxP L d) (Mbound d) (fun ch a2 b2 => ih ch a2 b2)
        ((L.legal_moves board).map (L.make_move board)) (-i16Max) a b with ⟨h1, h2, h3⟩
      have hM := Mbound_pos d
      have hMm : Mbound d ≤ Mbound (d + 1) := Mbound_mono (Nat.le_succ d)
      split
      · split <;>
          rcases colorIndex_cases (L.side_to_move board) with hci | hci <;>
          rw [hci] <;>
          simp only [stats_eval_fn, CHECKMATE_SCORE, CHECKMATE_DEPTH_SCORE, Mbound] <;>
          rw [abs_le] <;>
          push_cast <;>
          omega
      · rename_i hne
        rw [abs_le]
        simp only [i16Max] at hne h1 h2 h3 ⊢
        simp only [Mbound] at hM hMm h2 h3 ⊢
        push_cast at *
        omega

lemma fullNegamax_bound (L : ChessLib β μ) (hE : ∀ x, |L.evalPieces x| ≤ 12766) :
    ∀ (d : Nat) (board : β), |fullNegamax L d board| ≤ Mbound d := by
  intro d
  induction d with
  | zero =>
      intro board
      simp only [fullNegamax]
      rw [abs_colorIndex_mul]
      have h1 := hE board
      rw [abs_le] at h1 ⊢
      unfold Mbound
      omega
  | succ d ih =>
      intro board
      simp only [fullNegamax]
      have hM := Mbound_pos d
      have hMm : Mbound d ≤ Mbound (d + 1) := Mbound_mono (Nat.le_succ d)
      split
      · split <;>
          rcases colorIndex_cases (L.side_to_move board) with hci | hci <;>
          rw [hci] <;>
          simp only [stats_eval_fn, CHECKMATE_SCORE, CHECKMATE_DEPTH_SCORE, Mbound] <;>
          rw [abs_le] <;>
          push_cast <;>
          omega
      · rename_i hne
        rw [abs_le]
        rcases foldl_max_cases (fun c => -fullNegamax L d c)
          ((L.legal_moves board).map (L.make_move board)) (-i16Max) with h | ⟨c, hc, h⟩
        · exact absurd h hne
        · have hb := ih c
          rw [abs_le] at hb
          simp only [h] at hne ⊢
          simp only [Mbound, i16Max] at hM hMm hb hne ⊢
          push_cast at *
          omega

/-! Specializations of the fold lemmas to the full-width child fold, stated
in the exact syntactic form in which the fold occurs in fullNegamax. -/

lemma fold_full_le_start (L : ChessLib β μ) (d : Nat) (l : List β) (s : Int) :
    s ≤ l.foldl (fun acc c => max acc (-fullNegamax L d c)) s :=
  foldl_max_le_start (fun c => -fullNegamax L d c) l s

lemma fold_full_mono (L : ChessLib β μ) (d : Nat) (l : List β) {s t : Int}
    (h : s ≤ t) :
    l.foldl (fun acc c => max acc (-fullNegamax L d c)) s ≤
      l.foldl (fun acc c => max acc (-fullNegamax L d c)) t :=
  foldl_max_mono (fun c => -fullNegamax L d c) l h

lemma fold_full_cases (L : ChessLib β μ) (d : Nat) (l : List β) (s : Int) :
    l.foldl (fun acc c => max acc (-fullNegamax L d c)) s = s ∨
      ∃ c ∈ l, l.foldl (fun acc c => max acc (-fullNegamax L d c)) s =
        -fullNegamax L d c :=
  foldl_max_cases (fun c => -fullNegamax L d c) l s

lemma fold_full_elem_le (L : ChessLib β μ) (d : Nat) {l : List β} {c : β}
    (hc : c ∈ l) (s : Int) :
    -fullNegamax L d c ≤ l.foldl (fun acc c => max acc (-fullNegamax L d c)) s :=
  foldl_max_elem_le (fun c => -fullNegamax L d c) hc s

/-! Fail-soft alpha-beta soundness: the pruned search agrees with the
full-width search inside the window and brackets it outside. -/

lemma searchLoopP_failsoft (L : ChessLib β μ) (d : Nat)
    (hch : ∀ (c : β) (a2 b2 : Int), -i16Max ≤ a2 → b2 ≤ i16Max → a2 < b2 →
      (negamaxP L d c a2 b2 ≤ a2 → fullNegamax L d c ≤ negamaxP L d c a2 b2) ∧
      (b2 ≤ negamaxP L d c a2 b2 → negamaxP L d c a2 b2 ≤ fullNegamax L d c) ∧
      (a2 < negamaxP L d c a2 b2 → negamaxP L d c a2 b2 < b2 →
        negamaxP L d c a2 b2 = fullNegamax L d c)) :
    ∀ (l : List β) (value a a0 b : Int),
      a = max a0 value → -i16Max ≤ a0 → b ≤ i16Max → a < b →
      (searchLoopP (negamaxP L d) l value a b ≤ a0 →
        l.foldl (fun acc c => max acc (-fullNegamax L d c)) value ≤
          searchLoopP (negamaxP L d) l value a b) ∧
      (a0 < searchLoopP (negamaxP L d) l value a b →
        searchLoopP (negamaxP L d) l value a b < b →
        searchLoopP (negamaxP L d) l value a b =
          l.foldl (fun acc c => max acc (-fullNegamax L d c)) value) ∧
      (b ≤ searchLoopP (negamaxP L d) l value a b →
        searchLoopP (negamaxP L d) l value a b ≤
          l.foldl (fun acc c => max acc (-fullNegamax L d c)) value) := by
  intro l
  induction l with
  | nil =>
      intro value a a0 b ha ha0 hb hab
      exact ⟨fun _ => le_refl _, fun _ _ => rfl, fun _ => le_refl _⟩
  | cons c rest ih =>
      intro value a a0 b ha ha0 hb hab
      have hwin1 : -i16Max ≤ -b := by omega
      have hwin2 : -a ≤ i16Max := by omega
      have hwin3 : -b < -a := by omega
      rcases hch c (-b) (-a) hwin1 hwin2 hwin3 with ⟨hc1, hc2, hc3⟩
      simp only [searchLoopP, List.foldl]
      split
      · rename_i hbr
        -- cutoff: b <= max a (max value e), hence b <= e and the reported
        -- value is a lower bound on the true one
        have hbe : b ≤ -negamaxP L d c (-b) (-a) := by omega
        have hn : -fullNegamax L d c ≥ -negamaxP L d c (-b) (-a) := by
          have := hc1 (by omega)
          omega
        have hF := fold_full_le_start L d rest (max value (-fullNegamax L d c))
        constructor
        · intro h; omega
        · constructor
          · intro h1 h2; omega
          · intro h
            have : max value (-negamaxP L d c (-b) (-a)) ≤
                max value (-fullNegamax L d c) := by omega
            omega
      · rename_i hbr
        -- no cutoff at this child: continue with the updated window
        rcases le_or_lt (-negamaxP L d c (-b) (-a)) a with hce | hce
        · -- the child failed low: its reported value may overestimate the
          -- true one, but both stay at or below the window floor
          have hn : fullNegamax L d c ≥ negamaxP L d c (-b) (-a) := hc2 (by omega)
          rcases ih (max value (-negamaxP L d c (-b) (-a)))
            (max a (max value (-negamaxP L d c (-b) (-a)))) a0 b
            (by omega) ha0 hb (by omega) with ⟨ih1, ih2, ih3⟩
          have hmono := fold_full_mono L d rest
            (s := max value (-fullNegamax L d c))
            (t := max value (-negamaxP L d c (-b) (-a))) (by omega)
          constructor
          · intro h
            have := ih1 h
            omega
          · constructor
            · intro h1 h2
              have heq := ih2 h1 h2
              rcases fold_full_cases L d rest
                (max value (-negamaxP L d c (-b) (-a))) with hc | ⟨c2, hc2m, hcv⟩
              · -- the continuation never improved on its start; the kept
                -- value is the original running value, and both folds share it
                have hstart : max value (-fullNegamax L d c) =
                    max value (-negamaxP L d c (-b) (-a)) := by omega
                rw [hstart]
                omega
              · have helem := fold_full_elem_le L d hc2m
                  (max value (-fullNegamax L d c))
                omega
            · intro h
              have := ih3 h
              rcases fold_full_cases L d rest
                (max value (-negamaxP L d c (-b) (-a))) with hc | ⟨c2, hc2m, hcv⟩
              · have hle := searchLoopP_start_le (negamaxP L d) rest
                  (max value (-negamaxP L d c (-b) (-a)))
                  (max a (max value (-negamaxP L d c (-b) (-a)))) b
                omega
              · have helem := fold_full_elem_le L d hc2m
                  (max value (-fullNegamax L d c))
                omega
        · -- the window saw the child exactly
          have hn : negamaxP L d c (-b) (-a) = fullNegamax L d c := by
            have hlt : -negamaxP L d c (-b) (-a) < b := by omega
            exact hc3 (by omega) (by omega)
          rcases ih (max value (-negamaxP L d c (-b) (-a)))
            (max a (max value (-negamaxP L d c (-b) (-a)))) a0 b
            (by omega) ha0 hb (by omega) with ⟨ih1, ih2, ih3⟩
          rw [← hn]
          exact ⟨ih1, ih2, ih3⟩

lemma negamaxP_failsoft (L : ChessLib β μ) (hE : ∀ x, |L.evalPieces x| ≤ 12766) :
    ∀ (d : Nat), d ≤ 16 → ∀ (board : β) (a b : Int),
      -i16Max ≤ a → b ≤ i16Max → a < b →
      (negamaxP L d board a b ≤ a → fullNegamax L d board ≤ negamaxP L d board a b) ∧
      (b ≤ negamaxP L d board a b → negamaxP L d board a b ≤ fullNegamax L d board) ∧
      (a < negamaxP L d board a b → negamaxP L d board a b < b →
        negamaxP L d board a b = fullNegamax L d board) := by
  intro d
  induction d with
  | zero =>
      intro _ board a b _ _ _
      exact ⟨fun _ => le_refl _, fun _ => le_refl _, fun _ _ => rfl⟩
  | succ d ih =>
      intro hd16 board a b ha hb hab
      have hdd : d ≤ 16 := by omega
      have hch : ∀ (c : β) (a2 b2 : Int), -i16Max ≤ a2 → b2 ≤ i16Max → a2 < b2 →
          (negamaxP L d c a2 b2 ≤ a2 → fullNegamax L d c ≤ negamaxP L d c a2 b2) ∧
          (b2 ≤ negamaxP L d c a2 b2 → negamaxP L d c a2 b2 ≤ fullNegamax L d c) ∧
          (a2 < negamaxP L d c a2 b2 → negamaxP L d c a2 b2 < b2 →
            negamaxP L d c a2 b2 = fullNegamax L d c) :=
        fun c a2 b2 h1 h2 h3 => ih hdd c a2 b2 h1 h2 h3
      have hball : Mbound d < i16Max := by
        have := Mbound_le_of_depth hdd
        simp only [i16Max]
        omega
      rcases hLM : (L.legal_moves board).map (L.make_move board) with _ | ⟨c0, rest⟩
      · have heq : negamaxP L (d + 1) board a b = fullNegamax L (d + 1) board := by
          simp [negamaxP, fullNegamax, hLM, searchLoopP, List.foldl]
        rw [heq]
        exact ⟨fun _ => le_refl _, fun _ => le_refl _, fun _ _ => rfl⟩
      · rcases searchLoopP_failsoft L d hch (c0 :: rest) (-i16Max) a a b
          (by omega) (by omega) hb hab with ⟨l1, l2, l3⟩
        have hfirst := searchLoopP_first_le (negamaxP L d) c0 rest (-i16Max) a b
        have hcb := negamaxP_bound L hE d c0 (-b) (-a)
        rw [abs_le] at hcb
        have hrne : searchLoopP (negamaxP L d) (c0 :: rest) (-i16Max) a b ≠ -i16Max := by
          omega
        have hel := fold_full_elem_le L d (List.mem_cons_self c0 rest) (-i16Max)
        have hfb0 := fullNegamax_bound L hE d c0
        rw [abs_le] at hfb0
        have hFne : (c0 :: rest).foldl (fun acc c => max acc (-fullNegamax L d c))
            (-i16Max) ≠ -i16Max := by omega
        have heq1 : negamaxP L (d + 1) board a b =
            searchLoopP (negamaxP L d) (c0 :: rest) (-i16Max) a b := by
          simp only [negamaxP, hLM]
          rw [if_neg hrne]
        have heq2 : fullNegamax L (d + 1) board =
            (c0 :: rest).foldl (fun acc c => max acc (-fullNegamax L d c)) (-i16Max) := by
          simp only [fullNegamax, hLM]
          rw [if_neg hFne]
        rw [heq1, heq2]
        exact ⟨l1, l3, l2⟩

lemma rootLoopP_full (L : ChessLib β μ) (hE : ∀ x, |L.evalPieces x| ≤ 12766)
    (d : Nat) (hd : d ≤ 16) :
    ∀ (l : List (μ × β)) (value : Int) (best : Option μ),
      -i16Max ≤ value → value ≤ Mbound d →
      rootLoopP L d l value best value i16Max = fullRootLoop L d l value best := by
  have hball : Mbound d < i16Max := by
    have := Mbound_le_of_depth hd
    simp only [i16Max]
    omega
  have hMpos := Mbound_pos d
  intro l
  induction l with
  | nil => intro value best _ _; rfl
  | cons p rest ih =>
      intro value best hv1 hv2
      obtain ⟨mov, child⟩ := p
      have hgb := negamaxP_bound L hE d child (-i16Max) (-value)
      rw [abs_le] at hgb
      have hfb := fullNegamax_bound L hE d child
      rw [abs_le] at hfb
      rcases negamaxP_failsoft L hE d hd child (-i16Max) (-value)
        (le_refl _) (by omega) (by omega) with ⟨p1, p2, p3⟩
      rcases le_or_lt (-negamaxP L d child (-i16Max) (-value)) value with hce | hce
      · -- the child does not improve on the running value on either side
        have hnc : negamaxP L d child (-i16Max) (-value) ≤ fullNegamax L d child :=
          p2 (by omega)
        simp only [rootLoopP, fullRootLoop]
        rw [if_neg (by omega : ¬ value < -negamaxP L d child (-i16Max) (-value))]
        rw [if_neg (by omega : ¬ value < -fullNegamax L d child)]
        dsimp only
        rw [max_self value]
        rw [if_neg (by omega : ¬ i16Max ≤ value)]
        exact ih value best hv1 hv2
      · -- the window saw the child exactly; both sides update identically
        have hnc : negamaxP L d child (-i16Max) (-value) = fullNegamax L d child :=
          p3 (by omega) (by omega)
        simp only [rootLoopP, fullRootLoop]
        rw [if_pos hce]
        rw [if_pos (by omega : value < -fullNegamax L d child)]
        dsimp only
        rw [max_eq_right (le_of_lt hce)]
        rw [if_neg (by omega : ¬ i16Max ≤ -negamaxP L d child (-i16Max) (-value))]
        rw [hnc]
        exact ih (-fullNegamax L d child) (some mov) (by omega) (by omega)

/-- The prelude-level equivalence between the pure pruned root search and the
full-width root search. -/
lemma negamax_preludeP_full (L : ChessLib β μ) (hE : ∀ x, |L.evalPieces x| ≤ 12766)
    (board : β) (depth : Nat) (h1 : 1 ≤ depth) (hd : depth ≤ 16) :
    negamax_preludeP L board depth = Except.ok (full_prelude L board depth) := by
  rcases hL : (L.legal_moves board).map (fun m => (m, L.make_move board m)) with _ | ⟨c, cs⟩
  · simp [negamax_preludeP, full_prelude, hL]
  · cases depth with
    | zero => omega
    | succ d =>
        have hroot := rootLoopP_full L hE d (by omega) (c :: cs) (-i16Max) none
          (le_refl _) (by have := Mbound_pos d; simp only [i16Max]; omega)
        simp only [negamax_preludeP, full_prelude, hL, hroot]

/-! Structural lemmas about the root loop: the incumbent move can only be
replaced by another candidate, never dropped, and any returned move comes
from the candidate list. -/

lemma rootLoop_none {γ : Type} (L : ChessLib β μ) (d : Nat) :
    ∀ (l : List (μ × β)) (value : Int) (best : Option μ) (a b : Int)
      (rng : Rng) (cache : γ),
      (rootLoop L d l value best a b rng cache).2.1 = none → best = none := by
  intro l
  induction l with
  | nil => intro value best a b rng cache h; exact h
  | cons p rest ih =>
      intro value best a b rng cache h
      obtain ⟨mov, child⟩ := p
      simp only [rootLoop] at h
      split at h <;> split at h
      · exact absurd h (by simp)
      · exact absurd (ih _ _ _ _ _ _ h) (by simp)
      · exact h
      · exact ih _ _ _ _ _ _ h

lemma rootLoop_mem {γ : Type} (L : ChessLib β μ) (d : Nat) :
    ∀ (l : List (μ × β)) (value : Int) (best : Option μ) (a b : Int)
      (rng : Rng) (cache : γ) (m : μ),
      (rootLoop L d l value best a b rng cache).2.1 = some m →
        best = some m ∨ m ∈ l.map Prod.fst := by
  intro l
  induction l with
  | nil => intro value best a b rng cache m h; exact Or.inl h
  | cons p rest ih =>
      intro value best a b rng cache m h
      obtain ⟨mov, child⟩ := p
      simp only [rootLoop] at h
      split at h <;> split at h
      · right
        simp only [Option.some.injEq] at h
        simp [← h]
      · rcases ih _ _ _ _ _ _ _ h with h2 | h2
        · right
          simp only [Option.some.injEq] at h2
          simp [← h2]
        · right
          simp only [List.map_cons]
          exact List.mem_cons_of_mem _ h2
      · exact Or.inl h
      · rcases ih _ _ _ _ _ _ _ h with h2 | h2
        · exact Or.inl h2
        · right
          simp only [List.map_cons]
          exact List.mem_cons_of_mem _ h2

lemma rootLoop_progress {γ : Type} (L : ChessLib β μ) (d : Nat) (mov : μ)
    (child : β) (rest : List (μ × β)) (value : Int) (best : Option μ)
    (a b : Int) (rng : Rng) (cache : γ)
    (hlt : value < -(negamax L d child (-b) (-a) rng cache).1) :
    (rootLoop L d ((mov, child) :: rest) value best a b rng cache).2.1 ≠ none := by
  simp only [rootLoop]
  rw [if_pos hlt]
  dsimp only
  split
  · simp
  · intro h
    exact absurd (rootLoop_none L d _ _ _ _ _ _ _ h) (by simp)

/-! The repetition guard of src/chess_graphic.rs: get_potential_repetition
walks the game actions, hashing the current position before each played move
is applied, and collects every hash seen a second time. -/

/-- Mirrors chess::Action as consumed by get_potential_repetition: either a
played move or one of the non-move actions (draw offers and the like), which
the filter_map discards. -/
inductive GAction (μ : Type) where
  | makeMove (mov : μ)
  | other
deriving DecidableEq

/-- The filter_map over game.actions() keeping only the played moves. -/
def actionMoves (actions : List (GAction μ)) : List μ :=
  actions.filterMap (fun a =>
    match a with
    | GAction.makeMove m => some m
    | GAction.other => none)

/-- The for_each loop of get_potential_repetition: occured collects the
hashes seen, repeated the hashes seen at least twice; the board advances by
the played move after its pre-move position is hashed. -/
def repetitionLoop (L : ChessLib β μ) :
    List μ → β → Finset Nat → Finset Nat → Finset Nat
  | [], _, _, repeated => repeated
  | mov :: rest, board, occured, repeated =>
      if L.get_hash board ∈ occured then
        repetitionLoop L rest (L.make_move board mov) occured
          (insert (L.get_hash board) repeated)
      else
        repetitionLoop L rest (L.make_move board mov)
          (insert (L.get_hash board) occured) repeated

/-- Mirrors get_potential_repetition of src/chess_graphic.rs: base is the
starting position of the session (base_game.current_position()). -/
def get_potential_repetition (L : ChessLib β μ) (actions : List (GAction μ))
    (base : β) : Finset Nat :=
  repetitionLoop L (actionMoves actions) base ∅ ∅

/-- The positions from which each replayed move is played: the base position
and every successor except the one reached by the final move. -/
def visited (L : ChessLib β μ) : List μ → β → List β
  | [], _ => []
  | mov :: rest, board => board :: visited L rest (L.make_move board mov)

/-- The set of hash values occurring at least twice in a list of hashes. -/
def repOf (hashes : List Nat) : Finset Nat :=
  hashes.toFinset.filter (fun h => 2 ≤ hashes.count h)

/-- Modelled from the spec: the claimed reading of the repetition guard —
hash each position produced by replaying a played move (the final position
included, the base position not), and keep the hashes occurring more than
once. -/
def spec_potential_repetition (L : ChessLib β μ) (actions : List (GAction μ))
    (base : β) : Finset Nat :=
  repOf ((((actionMoves actions).scanl L.make_move base).tail).map L.get_hash)

lemma mem_repOf (hashes : List Nat) (x : Nat) :
    x ∈ repOf hashes ↔ 2 ≤ hashes.count x := by
  simp only [repOf, Finset.mem_filter, List.mem_toFinset]
  constructor
  · exact fun h => h.2
  · intro h
    refine ⟨?_, h⟩
    have hne : hashes.count x ≠ 0 := by omega
    rw [Ne, List.count_eq_zero] at hne
    exact not_not.mp hne

lemma repOf_append_mem (seen : List Nat) (h : Nat) (hh : h ∈ seen) :
    repOf (seen ++ [h]) = insert h (repOf seen) := by
  have hc0 : seen.count h ≠ 0 := by
    rw [Ne, List.count_eq_zero]
    exact not_not.mpr hh
  ext x
  simp only [mem_repOf, Finset.mem_insert, List.count_append, List.count_cons,
    List.count_nil, beq_iff_eq]
  rcases eq_or_ne x h with hx | hx
  · subst hx
    simp only [eq_self_iff_true, if_true, true_or, iff_true, ite_true]
    omega
  · simp only [hx, Ne.symm hx, if_false, false_or, ite_false]
    omega

lemma repOf_append_not_mem (seen : List Nat) (h : Nat) (hh : h ∉ seen) :
    repOf (seen ++ [h]) = repOf seen := by
  have hc0 : seen.count h = 0 := List.count_eq_zero.mpr hh
  ext x
  simp only [mem_repOf, List.count_append, List.count_cons, List.count_nil,
    beq_iff_eq]
  rcases eq_or_ne x h with hx | hx
  · subst hx
    simp only [eq_self_iff_true, if_true, ite_true]
    omega
  · simp only [hx, Ne.symm hx, if_false, ite_false]
    omega

lemma toFinset_append_singleton (seen : List Nat) (h : Nat) :
    (seen ++ [h]).toFinset = insert h seen.toFinset := by
  ext x
  simp [List.mem_toFinset, List.mem_append, or_comm]

lemma repetitionLoop_spec (L : ChessLib β μ) :
    ∀ (ms : List μ) (board : β) (seen : List Nat),
      repetitionLoop L ms board seen.toFinset (repOf seen) =
        repOf (seen ++ (visited L ms board).map L.get_hash) := by
  intro ms
  induction ms with
  | nil => intro board seen; simp [repetitionLoop, visited]
  | cons mov rest ih =>
      intro board seen
      simp only [repetitionLoop, visited, List.map_cons]
      by_cases hmem : L.get_hash board ∈ seen.toFinset
      · rw [if_pos hmem]
        rw [List.mem_toFinset] at hmem
        have h1 : insert (L.get_hash board) (repOf seen) =
            repOf (seen ++ [L.get_hash board]) :=
          (repOf_append_mem seen _ hmem).symm
        have h2 : seen.toFinset = (seen ++ [L.get_hash board]).toFinset := by
          rw [toFinset_append_singleton]
          exact (Finset.insert_eq_self.mpr (List.mem_toFinset.mpr hmem)).symm
        rw [h1, h2, ih (L.make_move board mov) (seen ++ [L.get_hash board])]
        congr 1
        simp
      · rw [if_neg hmem]
        rw [List.mem_toFinset] at hmem
        have h1 : repOf seen = repOf (seen ++ [L.get_hash board]) :=
          (repOf_append_not_mem seen _ hmem).symm
        have h2 : insert (L.get_hash board) seen.toFinset =
            (seen ++ [L.get_hash board]).toFinset :=
          (toFinset_append_singleton seen _).symm
        rw [h1, h2, ih (L.make_move board mov) (seen ++ [L.get_hash board])]
        congr 1
        simp

lemma get_potential_repetition_eq (L : ChessLib β μ) (actions : List (GAction μ))
    (base : β) :
    get_potential_repetition L actions base =
      repOf ((visited L (actionMoves actions) base).map L.get_hash) := by
  have h := repetitionLoop_spec L (actionMoves actions) base []
  simpa [get_potential_repetition, repOf] using h

/-! The static evaluator of src/chess_minmax/main_evalation.rs.  The board is
abstracted to its per-color and per-piece occupancy bitboards (Finsets of the
64 squares), the surface the evaluator reads through the rules library. -/

/-- The chess piece kinds, mirroring chess::Piece. -/
inductive PieceKind where
  | pawn
  | knight
  | bishop
  | rook
  | queen
  | king
deriving DecidableEq

/-- A board as the evaluator sees it: occupancy per color and per piece. -/
structure EvalBoard where
  colorBB : Color → Finset (Fin 64)
  piecesBB : PieceKind → Finset (Fin 64)

/-- The fourteen piece-square tables referenced by main_evalation.rs. -/
structure PieceTables where
  whitePawn : Fin 64 → Int
  blackPawn : Fin 64 → Int
  whiteKnight : Fin 64 → Int
  blackKnight : Fin 64 → Int
  whiteBishop : Fin 64 → Int
  blackBishop : Fin 64 → Int
  whiteRook : Fin 64 → Int
  blackRook : Fin 64 → Int
  whiteQueen : Fin 64 → Int
  blackQueen : Fin 64 → Int
  whiteKingMid : Fin 64 → Int
  blackKingMid : Fin 64 → Int
  whiteKingEnd : Fin 64 → Int
  blackKingEnd : Fin 64 → Int

/-- Modelled from the spec: weighted_sum is declared in
piece_square_tables.rs, which is not among the provided sources; per the
spec it totals the piece-square-table entries over the occupied squares of a
bitboard. -/
def weighted_sum (bb : Finset (Fin 64)) (table : Fin 64 → Int) : Int :=
  ∑ sq ∈ bb, table sq

/-- Mirrors evaluation_pieces_worth_plus of main_evalation.rs, over the
abstract tables: per-piece white-minus-black table sums, with the king term
chosen by whether both queen table sums are zero. -/
def evaluation_pieces_worth_plus (B : EvalBoard) (T : PieceTables) : Int :=
  let white := B.colorBB Color.white
  let black := B.colorBB Color.black
  let pawn := B.piecesBB PieceKind.pawn
  let bishop := B.piecesBB PieceKind.bishop
  let rook := B.piecesBB PieceKind.rook
  let knight := B.piecesBB PieceKind.knight
  let queen := B.piecesBB PieceKind.queen
  let king := B.piecesBB PieceKind.king
  let delta_piece_table := fun (piece_bb : Finset (Fin 64))
    (w_table b_table : Fin 64 → Int) =>
    weighted_sum (piece_bb ∩ white) w_table - weighted_sum (piece_bb ∩ black) b_table
  let delta_pawn_p := delta_piece_table pawn T.whitePawn T.blackPawn
  let delta_rook_p := delta_piece_table rook T.whiteRook T.blackRook
  let delta_bishop_p := delta_piece_table bishop T.whiteBishop T.blackBishop
  let delta_knight_p := delta_piece_table knight T.whiteKnight T.blackKnight
  let white_queen_p := weighted_sum (queen ∩ white) T.whiteQueen
  let black_queen_p := weighted_sum (queen ∩ black) T.blackQueen
  let delta_queen_p := white_queen_p - black_queen_p
  let delta_king_p :=
    if white_queen_p = 0 ∧ black_queen_p = 0 then
      delta_piece_table king T.whiteKingEnd T.blackKingEnd
    else
      delta_piece_table king T.whiteKingMid T.blackKingMid
  delta_queen_p + delta_rook_p + delta_bishop_p + delta_knight_p +
    delta_pawn_p + delta_king_p

lemma weighted_sum_eq_zero_iff (bb : Finset (Fin 64)) (table : Fin 64 → Int)
    (ht : ∀ i, 0 < table i) : weighted_sum bb table = 0 ↔ bb = ∅ := by
  constructor
  · intro h
    by_contra hne
    have hpos : 0 < weighted_sum bb table :=
      Finset.sum_pos (fun i _ => ht i)
        (Finset.nonempty_of_ne_empty hne)
    omega
  · intro h
    simp [h, weighted_sum]

/-! Concrete finite instances used to evaluate the theorems on explicit
inputs.  In the three-board game, board 0 has the two moves 1 and 2 (a move
goes to the board of its own number), board 1 is a stalemate-like dead end
(no moves, not in check) and board 2 a checkmate-like dead end (no moves,
in check). -/

def inst : ChessLib (Fin 3) (Fin 3) where
  side_to_move := fun _ => Color.white
  legal_moves := fun b => if b = 0 then [1, 2] else []
  make_move := fun _ m => m
  checkers_empty := fun b => decide (b ≠ 2)
  evalPieces := fun b => if b = 1 then 5 else if b = 2 then 2 else 0
  get_hash := fun b => b.val

/-- A zero-noise random stream: every raw draw is 1, whose noise value is 0. -/
def rng0 : Rng := Rng.mk (fun _ => 1) 0

/-- A second zero-noise random stream with a different raw stream and cursor. -/
def rng1 : Rng := Rng.mk (fun _ => 4) 7

/-- A concrete nonempty transposition cache state. -/
def cacheC : List TranspositionItem :=
  [TranspositionItem.mk (BoundedScore.exact 7) 3]

lemma rng0_zero_noise : ZeroNoise rng0.seq := fun _ => rfl

lemma rng1_zero_noise : ZeroNoise rng1.seq := fun _ => rfl

/-- C5: whenever negamax is called with depth == 0 it expands no moves and
returns side_sign * evaluate(position, rng), where side_sign is +1 for White
to move and -1 for Black to move; the random source advances by the one draw
the evaluation consumes and the cache is untouched. -/
theorem C5_depth_zero_leaf {γ : Type} (L : ChessLib β μ) (board : β)
    (a b : Int) (rng : Rng) (cache : γ) :
    negamax L 0 board a b rng cache =
      (colorIndex (L.side_to_move board) * (evaluation_fn L board rng).1,
        (evaluation_fn L board rng).2, cache) ∧
    colorIndex Color.white = 1 ∧ colorIndex Color.black = -1 :=
  ⟨rfl, rfl, rfl⟩

/-- C10: calling the root search with depth == 0 on a position with at least
one legal move evaluates the underflowing u8 subtraction depth - 1 (modelled
as the error outcome), and under the precondition depth >= 1 the search is
total: it always returns an ok outcome. -/
theorem C10_depth_zero_underflow {γ : Type} (L : ChessLib β μ) (board : β)
    (rng : Rng) (cache : γ) :
    (L.legal_moves board ≠ [] →
      negamax_prelude L board 0 rng cache = Except.error ()) ∧
    (∀ depth : Nat, 1 ≤ depth →
      ∃ out, negamax_prelude L board depth rng cache = Except.ok out) := by
  constructor
  · intro hne
    rcases hL : L.legal_moves board with _ | ⟨m0, ms⟩
    · exact absurd hL hne
    · simp [negamax_prelude, hL]
  · intro depth h1
    rcases hL : L.legal_moves board with _ | ⟨m0, ms⟩
    · exact ⟨(none, rng, cache), by simp [negamax_prelude, hL]⟩
    · cases depth with
      | zero => omega
      | succ d =>
          rcases hx : negamax_prelude L board (d + 1) rng cache with e | out
          · simp [negamax_prelude, hL] at hx
          · exact ⟨out, rfl⟩

/-- Witness for C10 at the concrete game: board 0 has moves, so depth 0
underflows, while depth 1 returns ok. -/
theorem C10_witness :
    inst.legal_moves 0 ≠ [] ∧
    negamax_prelude inst 0 0 rng0 cacheC = Except.error () ∧
    (1 : Nat) ≤ 1 ∧
    ∃ out, negamax_prelude inst 0 1 rng0 cacheC = Except.ok out :=
  ⟨by decide, (C10_depth_zero_underflow inst 0 rng0 cacheC).1 (by decide),
    by decide, (C10_depth_zero_underflow inst 0 rng0 cacheC).2 1 (by decide)⟩

/-- C2 (amended with the depth >= 1 guard): a node reached with remaining
depth >= 1 and zero legal moves is classified stalemate when not in check
and checkmate when in check, and negamax returns side_sign *
stats_eval_fn(status, side_sign, depth): 0 for stalemate, and the net value
-(20000 + 500 * depth) for checkmate, strictly more negative the higher the
remaining depth. -/
theorem C2_terminal_scoring {γ : Type} (L : ChessLib β μ) (board : β)
    (depth : Nat) (a b : Int) (rng : Rng) (cache : γ)
    (hmoves : L.legal_moves board = []) (hd : 1 ≤ depth) :
    (negamax L depth board a b rng cache).1 =
      colorIndex (L.side_to_move board) *
        stats_eval_fn
          (if L.checkers_empty board then BoardStatus.stalemate
            else BoardStatus.checkmate)
          (colorIndex (L.side_to_move board)) depth ∧
    (L.checkers_empty board = true →
      (negamax L depth board a b rng cache).1 = 0) ∧
    (L.checkers_empty board = false →
      (negamax L depth board a b rng cache).1 =
        -(CHECKMATE_SCORE + CHECKMATE_DEPTH_SCORE * (depth : Int))) ∧
    (∀ d1 d2 : Nat, d2 < d1 →
      -(CHECKMATE_SCORE + CHECKMATE_DEPTH_SCORE * (d1 : Int)) <
        -(CHECKMATE_SCORE + CHECKMATE_DEPTH_SCORE * (d2 : Int))) := by
  cases depth with
  | zero => omega
  | succ d =>
      have hval : (negamax L (d + 1) board a b rng cache).1 =
          colorIndex (L.side_to_move board) *
            stats_eval_fn
              (if L.checkers_empty board then BoardStatus.stalemate
                else BoardStatus.checkmate)
              (colorIndex (L.side_to_move board)) (d + 1) := by
        simp [negamax, hmoves, searchLoop]
      refine ⟨hval, ?_, ?_, ?_⟩
      · intro hch
        rw [hval, hch]
        simp [stats_eval_fn]
      · intro hch
        rw [hval, hch]
        simp only [Bool.false_eq_true, if_false, stats_eval_fn]
        rw [← mul_assoc, colorIndex_mul_self, one_mul]
      · intro d1 d2 hlt
        simp only [CHECKMATE_SCORE, CHECKMATE_DEPTH_SCORE]
        omega

/-- Counterexample to C2 as stated: board 1 of the concrete game has zero
legal moves and is not in check, yet negamax reached at remaining depth 0
returns the static evaluation 5, not side_sign * terminal_score = 0. -/
theorem C2_counterexample :
    inst.legal_moves 1 = [] ∧
    inst.checkers_empty 1 = true ∧
    (negamax inst 0 1 (-i16Max) i16Max rng0 cacheC).1 = 5 ∧
    colorIndex (inst.side_to_move 1) *
      stats_eval_fn BoardStatus.stalemate (colorIndex (inst.side_to_move 1)) 0 = 0 ∧
    (negamax inst 0 1 (-i16Max) i16Max rng0 cacheC).1 ≠
      colorIndex (inst.side_to_move 1) *
        stats_eval_fn BoardStatus.stalemate (colorIndex (inst.side_to_move 1)) 0 := by
  refine ⟨rfl, rfl, by decide, by decide, by decide⟩

/-- Witness for C2: at board 1 (stalemate dead end) negamax at depth 1
returns 0; at board 2 (checkmate dead end) it returns -(20000 + 500). -/
theorem C2_witness :
    inst.legal_moves 1 = [] ∧
    (negamax inst 1 1 (-i16Max) i16Max rng0 cacheC).1 = 0 ∧
    (negamax inst 1 2 (-i16Max) i16Max rng0 cacheC).1 =
      -(CHECKMATE_SCORE + CHECKMATE_DEPTH_SCORE * (1 : Int)) ∧
    -(CHECKMATE_SCORE + CHECKMATE_DEPTH_SCORE * (2 : Int)) <
      -(CHECKMATE_SCORE + CHECKMATE_DEPTH_SCORE * (1 : Int)) :=
  ⟨by decide,
    (C2_terminal_scoring inst 1 1 (-i16Max) i16Max rng0 cacheC (by decide)
      (by decide)).2.1 (by decide),
    (C2_terminal_scoring inst 2 1 (-i16Max) i16Max rng0 cacheC (by decide)
      (by decide)).2.2.1 (by decide),
    (C2_terminal_scoring inst 1 1 (-i16Max) i16Max rng0 cacheC (by decide)
      (by decide)).2.2.2 2 1 (by decide)⟩

/-- C1: for depth in the supported range, the root search returns ok, its
outcome is None exactly when the position has no legal moves, and any
returned move is a legal move of the input position. -/
theorem C1_prelude_outcome {γ : Type} (L : ChessLib β μ) (board : β)
    (depth : Nat) (rng : Rng) (cache : γ)
    (hE : ∀ x, |L.evalPieces x| ≤ 12766) (h1 : 1 ≤ depth) (h16 : depth ≤ 16) :
    ∃ out, negamax_prelude L board depth rng cache = Except.ok out ∧
      (out.1 = none ↔ L.legal_moves board = []) ∧
      (∀ m s, out.1 = some (m, s) → m ∈ L.legal_moves board) := by
  rcases hL : L.legal_moves board with _ | ⟨m0, ms⟩
  · refine ⟨(none, rng, cache), ?_, ?_, ?_⟩
    · simp [negamax_prelude, hL]
    · simp
    · intro m s h
      exact absurd h (by simp)
  · cases depth with
    | zero => omega
    | succ d =>
        have hmap : (L.legal_moves board).map (fun m => (m, L.make_move board m)) =
            (m0, L.make_move board m0) ::
              ms.map (fun m => (m, L.make_move board m)) := by
          rw [hL]
          rfl
        have hb := negamax_bound L hE d (L.make_move board m0)
          (-i16Max) (- -i16Max) rng cache
        rw [abs_le] at hb
        have hM : Mbound d ≤ 28000 := Mbound_le_of_depth (by omega)
        have hball : Mbound d < i16Max := by
          simp only [i16Max]
          omega
        have hprog := rootLoop_progress L d m0 (L.make_move board m0)
          (ms.map (fun m => (m, L.make_move board m))) (-i16Max) none
          (-i16Max) i16Max rng cache (by omega)
        rcases hres : rootLoop L d
            ((m0, L.make_move board m0) :: ms.map (fun m => (m, L.make_move board m)))
            (-i16Max) none (-i16Max) i16Max rng cache with ⟨value, best, rng2, c2⟩
        have hbest : best ≠ none := by
          intro hno
          exact hprog (by rw [hres]; exact hno)
        rcases hbestv : best with _ | m
        · exact absurd hbestv hbest
        subst hbestv
        have hmem := rootLoop_mem L d
          ((m0, L.make_move board m0) :: ms.map (fun m => (m, L.make_move board m)))
          (-i16Max) none (-i16Max) i16Max rng cache m (by rw [hres])
        refine ⟨(some (m, value), rng2, c2), ?_, ?_, ?_⟩
        · simp only [negamax_prelude, hmap, hres]
          rfl
        · simp [hL]
        · intro m2 s h
          simp only [Option.some.injEq, Prod.mk.injEq] at h
          rcases hmem with hmem | hmem
          · exact absurd hmem (by simp)
          · rw [← h.1]
            simpa [List.map_map, Function.comp, List.map_id] using hmem

/-- Witness for C1 at the concrete game and depth 2: the search returns the
move to board 2 with the mate score, a legal move of board 0. -/
theorem C1_witness :
    (∀ x : Fin 3, |inst.evalPieces x| ≤ 12766) ∧ (1 : Nat) ≤ 2 ∧ (2 : Nat) ≤ 16 ∧
    ∃ out, negamax_prelude inst 0 2 rng0 cacheC = Except.ok out ∧
      (out.1 = none ↔ inst.legal_moves 0 = []) ∧
      (∀ m s, out.1 = some (m, s) → m ∈ inst.legal_moves 0) :=
  ⟨by decide, by decide, by decide,
    C1_prelude_outcome inst 0 2 rng0 cacheC (by decide) (by decide) (by decide)⟩

/-- C3: the root window is initialized to -(i16::MAX) and i16::MAX, never
the literal i16::MIN; for any supported depth every score produced by
negamax, by the root search, and by the terminal scorer lies within the
16-bit range [-32767, 32767], so no 16-bit arithmetic overflows. -/
theorem C3_score_bounds {γ : Type} (L : ChessLib β μ) (board : β)
    (depth : Nat) (a b : Int) (rng : Rng) (cache : γ)
    (out : Option (μ × Int) × Rng × γ) (m : μ) (s : Int)
    (st : BoardStatus) (ci : Int)
    (hE : ∀ x, |L.evalPieces x| ≤ 12766) (h1 : 1 ≤ depth) (h16 : depth ≤ 16)
    (hci : ci = 1 ∨ ci = -1) :
    (-i16Max = -32767 ∧ i16Max = 32767 ∧ -i16Max ≠ -32768) ∧
    |(negamax L depth board a b rng cache).1| ≤ 32767 ∧
    (negamax_prelude L board depth rng cache = Except.ok out →
      out.1 = some (m, s) → -32767 ≤ s ∧ s ≤ 32767) ∧
    |stats_eval_fn st ci depth| ≤ 32767 := by
  have hM : Mbound depth ≤ 28000 := Mbound_le_of_depth h16
  refine ⟨by simp [i16Max], ?_, ?_, ?_⟩
  · have := negamax_bound L hE depth board a b rng cache
    omega
  · intro hok hsome
    rcases hL : L.legal_moves board with _ | ⟨m0, ms⟩
    · simp only [negamax_prelude, hL, List.map_nil, Except.ok.injEq] at hok
      rw [← hok] at hsome
      exact absurd hsome (by simp)
    · cases depth with
      | zero => omega
      | succ d =>
          have hmap : (L.legal_moves board).map (fun m => (m, L.make_move board m)) =
              (m0, L.make_move board m0) ::
                ms.map (fun m => (m, L.make_move board m)) := by
            rw [hL]
            rfl
          rcases rootLoop_bound L d (Mbound d)
            (fun ch a2 b2 rng2 c2 => negamax_bound L hE d ch a2 b2 rng2 c2)
            ((m0, L.make_move board m0) :: ms.map (fun m => (m, L.make_move board m)))
            (-i16Max) none (-i16Max) i16Max rng cache with ⟨hlo, hhi⟩
          simp only [negamax_prelude, hmap, Except.ok.injEq] at hok
          rw [← hok] at hsome
          rcases hbv : (rootLoop L d
              ((m0, L.make_move board m0) :: ms.map (fun m => (m, L.make_move board m)))
              (-i16Max) none (-i16Max) i16Max rng cache).2.1 with _ | m2
          · rw [hbv] at hsome
            exact absurd hsome (by simp)
          · rw [hbv] at hsome
            simp only [Option.map_some', Option.some.injEq, Prod.mk.injEq] at hsome
            have hd16 : Mbound d ≤ 28000 := Mbound_le_of_depth (by omega)
            rw [← hsome.2]
            simp only [i16Max] at hlo hhi hd16 ⊢
            omega
  · rcases st <;> rcases hci with hci | hci <;>
      simp only [stats_eval_fn, CHECKMATE_SCORE, CHECKMATE_DEPTH_SCORE, hci] <;>
      rw [abs_le]
    all_goals omega

/-- Witness for C3 at the concrete game and depth 2: the mate score 20500 of
the root search and all component bounds evaluated concretely. -/
theorem C3_witness :
    ((-i16Max = -32767 ∧ i16Max = 32767 ∧ -i16Max ≠ -32768) ∧
      |(negamax inst 2 0 (-i16Max) i16Max rng0 cacheC).1| ≤ 32767 ∧
      (negamax_prelude inst 0 2 rng0 cacheC =
          Except.ok (some (2, 20500), rng0, cacheC) →
        (some ((2 : Fin 3), (20500 : Int)), rng0, cacheC).1 = some (2, 20500) →
        -32767 ≤ (20500 : Int) ∧ (20500 : Int) ≤ 32767) ∧
      |stats_eval_fn BoardStatus.checkmate 1 2| ≤ 32767) ∧
    -32767 ≤ (20500 : Int) ∧ (20500 : Int) ≤ 32767 := by
  have h := C3_score_bounds inst 0 2 (-i16Max) i16Max rng0 cacheC
    (some (2, 20500), rng0, cacheC) 2 20500 BoardStatus.checkmate 1
    (by decide) (by decide) (by decide) (Or.inl rfl)
  exact ⟨h, h.2.2.1 (by rfl) (by rfl)⟩

/-- C4: alpha-beta pruning is a safe cutoff — with the random perturbation
fixed to zero, the pruned root search returns exactly the root move and
score of the plain full-width negamax with the window updates and the
a >= b early break removed; pruned siblings can never change the root
result. -/
theorem C4_pruning_safe {γ : Type} (L : ChessLib β μ) (board : β)
    (depth : Nat) (rng : Rng) (cache : γ) (hZ : ZeroNoise rng.seq)
    (hE : ∀ x, |L.evalPieces x| ≤ 12766) (h1 : 1 ≤ depth) (h16 : depth ≤ 16) :
    searchOutcome (negamax_prelude L board depth rng cache) =
      Except.ok (full_prelude L board depth) := by
  rw [negamax_prelude_pure L board depth rng cache hZ]
  exact negamax_preludeP_full L hE board depth h1 h16

/-- Witness for C4 at the concrete game and depth 2: the pruned and the
full-width searches agree on the root move and score. -/
theorem C4_witness :
    searchOutcome (negamax_prelude inst 0 2 rng0 cacheC) =
      Except.ok (full_prelude inst 0 2) ∧
    full_prelude inst 0 2 = some (2, 20500) :=
  ⟨C4_pruning_safe inst 0 2 rng0 cacheC rng0_zero_noise (by decide) (by decide)
      (by decide),
    by decide⟩

/-- C6: with the random perturbation fixed to zero, two root search calls
with identical position, depth and cache state return an identical move and
score; and in the root loop a candidate whose value does not strictly exceed
the incumbent value never replaces the incumbent move, so equal-valued later
candidates keep the earlier move. -/
theorem C6_determinism_tiebreak :
    (∀ (β μ γ : Type) (L : ChessLib β μ) (board : β) (depth : Nat)
      (rng1 rng2 : Rng) (cache : γ),
      ZeroNoise rng1.seq → ZeroNoise rng2.seq →
      searchOutcome (negamax_prelude L board depth rng1 cache) =
        searchOutcome (negamax_prelude L board depth rng2 cache)) ∧
    (∀ (β μ γ : Type) (L : ChessLib β μ) (d : Nat) (mov : μ) (child : β)
      (rest : List (μ × β)) (value : Int) (best : Option μ) (a b : Int)
      (rng : Rng) (cache : γ),
      -(negamax L d child (-b) (-a) rng cache).1 ≤ value →
      ¬ b ≤ max a value →
      rootLoop L d ((mov, child) :: rest) value best a b rng cache =
        rootLoop L d rest value best (max a value) b
          (negamax L d child (-b) (-a) rng cache).2.1
          (negamax L d child (-b) (-a) rng cache).2.2) := by
  constructor
  · intro β μ γ L board depth rng1 rng2 cache hZ1 hZ2
    rw [negamax_prelude_pure L board depth rng1 cache hZ1,
      negamax_prelude_pure L board depth rng2 cache hZ2]
  · intro β μ γ L d mov child rest value best a b rng cache hle hbr
    simp only [rootLoop]
    rw [if_neg (not_lt.mpr hle)]
    dsimp only
    rw [if_neg hbr]

/-- Witness for C6: the two zero-noise streams rng0 and rng1 (different raw
streams and cursors) give the same outcome at depth 2, and a tied candidate
does not displace the incumbent move in a concrete root-loop step. -/
theorem C6_witness :
    searchOutcome (negamax_prelude inst 0 2 rng0 cacheC) =
      searchOutcome (negamax_prelude inst 0 2 rng1 cacheC) ∧
    rootLoop inst 0 [((1 : Fin 3), (1 : Fin 3))] 5 (some 2) 5 i16Max rng0 cacheC =
      rootLoop inst 0 ([] : List (Fin 3 × Fin 3)) 5 (some 2) (max 5 5) i16Max
        (negamax inst 0 1 (-i16Max) (-(5 : Int)) rng0 cacheC).2.1
        (negamax inst 0 1 (-i16Max) (-(5 : Int)) rng0 cacheC).2.2 :=
  ⟨C6_determinism_tiebreak.1 (Fin 3) (Fin 3) (List TranspositionItem) inst 0 2
      rng0 rng1 cacheC rng0_zero_noise rng1_zero_noise,
    C6_determinism_tiebreak.2 (Fin 3) (Fin 3) (List TranspositionItem) inst 0
      1 1 [] 5 (some 2) 5 i16Max rng0 cacheC (by decide) (by decide)⟩

/-- C7 (corrected): the search leaves the transposition cache exactly as it
received it — the cache probe and store of the source are commented out, so
no insertion or eviction ever happens; the repetition set is not even a
parameter of the chess_minmax entry point; the random source is consumed
only at depth-0 leaves, one draw per leaf evaluation. -/
theorem C7_session_frame {γ : Type} (L : ChessLib β μ) (d : Nat) (board : β)
    (a b : Int) (depth : Nat) (rng : Rng) (cache : γ)
    (out : Option (μ × Int) × Rng × γ) :
    (negamax L d board a b rng cache).2.2 = cache ∧
    (negamax_prelude L board depth rng cache = Except.ok out →
      out.2.2 = cache) ∧
    (negamax L 0 board a b rng cache).2.1.idx = rng.idx + 1 := by
  refine ⟨(negamax_frame L d board a b rng cache).2, ?_, rfl⟩
  intro h
  exact negamax_prelude_cache L board depth rng cache out h

/-- Witness for C7: a depth-2 root search over board 0 hands back the very
cache state it was given, and a depth-0 call advances the random cursor by
one draw. -/
theorem C7_witness :
    (negamax inst 2 0 (-i16Max) i16Max rng0 cacheC).2.2 = cacheC ∧
    ((some ((2 : Fin 3), (20500 : Int)), rng0, cacheC) :
        Option (Fin 3 × Int) × Rng × List TranspositionItem).2.2 = cacheC ∧
    (negamax inst 0 0 (-i16Max) i16Max rng0 cacheC).2.1.idx = rng0.idx + 1 :=
  ⟨(C7_session_frame inst 2 0 (-i16Max) i16Max 2 rng0 cacheC
      (some (2, 20500), rng0, cacheC)).1,
    (C7_session_frame inst 2 0 (-i16Max) i16Max 2 rng0 cacheC
      (some (2, 20500), rng0, cacheC)).2.1 (by rfl),
    (C7_session_frame inst 0 0 (-i16Max) i16Max 2 rng0 cacheC
      (some (2, 20500), rng0, cacheC)).2.2⟩

/-- Counterexample to C7 as stated: the claim says a search call mutates the
cache by insertions and evictions, but the depth-2 root search over board 0
returns the nonempty cache cacheC unchanged — no entry was inserted or
evicted. -/
theorem C7_counterexample :
    negamax_prelude inst 0 2 rng0 cacheC =
      Except.ok (some (2, 20500), rng0, cacheC) ∧
    ¬ ∃ out, negamax_prelude inst 0 2 rng0 cacheC = Except.ok out ∧
        out.2.2 ≠ cacheC := by
  constructor
  · rfl
  · rintro ⟨out, h1, h2⟩
    have h3 : Except.ok (ε := Unit) (some ((2 : Fin 3), (20500 : Int)), rng0, cacheC) =
        Except.ok out := by
      rw [← h1]
      rfl
    simp only [Except.ok.injEq] at h3
    rw [← h3] at h2
    exact h2 rfl

/-- C8 (corrected): the repetition-guard builder returns exactly the set of
position hashes occurring more than once among the positions hashed before
each replayed move — the base position and every position reached except the
one produced by the final move; the final position is never hashed. -/
theorem C8_repetition_guard (L : ChessLib β μ) (actions : List (GAction μ))
    (base : β) :
    get_potential_repetition L actions base =
      repOf ((visited L (actionMoves actions) base).map L.get_hash) :=
  get_potential_repetition_eq L actions base

/-- The concrete game history 0 -> 1 -> 0 -> 1 used to refute C8 as
stated: board 0 recurs among the pre-move positions, board 1 among the
post-move positions. -/
def repActions : List (GAction (Fin 3)) :=
  [GAction.makeMove 1, GAction.makeMove 0, GAction.makeMove 1]

/-- Counterexample to C8 as stated: on the history 0 -> 1 -> 0 -> 1 the
builder returns the hash set of the repeated pre-move position 0, not the
set the claim describes — the hashes repeated among the positions produced
by each move including the final one, which is the hash of board 1. -/
theorem C8_counterexample :
    get_potential_repetition inst repActions 0 = {0} ∧
    spec_potential_repetition inst repActions 0 = {1} ∧
    get_potential_repetition inst repActions 0 ≠
      spec_potential_repetition inst repActions 0 := by
  refine ⟨by decide, by decide, by decide⟩

/-- C9: the static evaluator returns the sum over all piece types of
(White's piece-square-table sum) - (Black's piece-square-table sum), the
king contribution switching to the endgame tables exactly when neither side
still has a queen on the board.  The queen tables are positive (they carry
the queen's material weight), which makes the code's zero-sum phase test
equivalent to queen absence. -/
theorem C9_evaluator (B : EvalBoard) (T : PieceTables)
    (hW : ∀ i, 0 < T.whiteQueen i) (hB : ∀ i, 0 < T.blackQueen i) :
    evaluation_pieces_worth_plus B T =
      (weighted_sum (B.piecesBB PieceKind.pawn ∩ B.colorBB Color.white) T.whitePawn -
        weighted_sum (B.piecesBB PieceKind.pawn ∩ B.colorBB Color.black) T.blackPawn) +
      (weighted_sum (B.piecesBB PieceKind.knight ∩ B.colorBB Color.white) T.whiteKnight -
        weighted_sum (B.piecesBB PieceKind.knight ∩ B.colorBB Color.black) T.blackKnight) +
      (weighted_sum (B.piecesBB PieceKind.bishop ∩ B.colorBB Color.white) T.whiteBishop -
        weighted_sum (B.piecesBB PieceKind.bishop ∩ B.colorBB Color.black) T.blackBishop) +
      (weighted_sum (B.piecesBB PieceKind.rook ∩ B.colorBB Color.white) T.whiteRook -
        weighted_sum (B.piecesBB PieceKind.rook ∩ B.colorBB Color.black) T.blackRook) +
      (weighted_sum (B.piecesBB PieceKind.queen ∩ B.colorBB Color.white) T.whiteQueen -
        weighted_sum (B.piecesBB PieceKind.queen ∩ B.colorBB Color.black) T.blackQueen) +
      (if B.piecesBB PieceKind.queen ∩ B.colorBB Color.white = ∅ ∧
          B.piecesBB PieceKind.queen ∩ B.colorBB Color.black = ∅ then
        weighted_sum (B.piecesBB PieceKind.king ∩ B.colorBB Color.white) T.whiteKingEnd -
          weighted_sum (B.piecesBB PieceKind.king ∩ B.colorBB Color.black) T.blackKingEnd
      else
        weighted_sum (B.piecesBB PieceKind.king ∩ B.colorBB Color.white) T.whiteKingMid -
          weighted_sum (B.piecesBB PieceKind.king ∩ B.colorBB Color.black) T.blackKingMid) := by
  have h1 := weighted_sum_eq_zero_iff
    (B.piecesBB PieceKind.queen ∩ B.colorBB Color.white) T.whiteQueen hW
  have h2 := weighted_sum_eq_zero_iff
    (B.piecesBB PieceKind.queen ∩ B.colorBB Color.black) T.blackQueen hB
  simp only [evaluation_pieces_worth_plus]
  rw [if_congr (and_congr h1 h2) rfl rfl]
  ring

/-- A concrete evaluation board: White holds squares 0 and 1 (a king and a
pawn), Black squares 2 and 3 (a king and a pawn); no queens. -/
def evalB : EvalBoard where
  colorBB := fun c =>
    match c with
    | Color.white => {0, 1}
    | Color.black => {2, 3}
  piecesBB := fun p =>
    match p with
    | PieceKind.pawn => {1, 3}
    | PieceKind.king => {0, 2}
    | _ => ∅

/-- Concrete piece-square tables: every entry 1 except the endgame king
tables, whose entries are 2. -/
def evalT : PieceTables where
  whitePawn := fun _ => 1
  blackPawn := fun _ => 1
  whiteKnight := fun _ => 1
  blackKnight := fun _ => 1
  whiteBishop := fun _ => 1
  blackBishop := fun _ => 1
  whiteRook := fun _ => 1
  blackRook := fun _ => 1
  whiteQueen := fun _ => 1
  blackQueen := fun _ => 1
  whiteKingMid := fun _ => 1
  blackKingMid := fun _ => 1
  whiteKingEnd := fun _ => 2
  blackKingEnd := fun _ => 2

/-- Witness for C9 at the concrete board and tables: no queens are on the
board, so the endgame king tables are selected. -/
theorem C9_witness :
    (∀ i, 0 < evalT.whiteQueen i) ∧ (∀ i, 0 < evalT.blackQueen i) ∧
    evaluation_pieces_worth_plus evalB evalT =
      (weighted_sum (evalB.piecesBB PieceKind.pawn ∩ evalB.colorBB Color.white) evalT.whitePawn -
        weighted_sum (evalB.piecesBB PieceKind.pawn ∩ evalB.colorBB Color.black) evalT.blackPawn) +
      (weighted_sum (evalB.piecesBB PieceKind.knight ∩ evalB.colorBB Color.white) evalT.whiteKnight -
        weighted_sum (evalB.piecesBB PieceKind.knight ∩ evalB.colorBB Color.black) evalT.blackKnight) +
      (weighted_sum (evalB.piecesBB PieceKind.bishop ∩ evalB.colorBB Color.white) evalT.whiteBishop -
        weighted_sum (evalB.piecesBB PieceKind.bishop ∩ evalB.colorBB Color.black) evalT.blackBishop) +
      (weighted_sum (evalB.piecesBB PieceKind.rook ∩ evalB.colorBB Color.white) evalT.whiteRook -
        weighted_sum (evalB.piecesBB PieceKind.rook ∩ evalB.colorBB Color.black) evalT.blackRook) +
      (weighted_sum (evalB.piecesBB PieceKind.queen ∩ evalB.colorBB Color.white) evalT.whiteQueen -
        weighted_sum (evalB.piecesBB PieceKind.queen ∩ evalB.colorBB Color.black) evalT.blackQueen) +
      (if evalB.piecesBB PieceKind.queen ∩ evalB.colorBB Color.white = ∅ ∧
          evalB.piecesBB PieceKind.queen ∩ evalB.colorBB Color.black = ∅ then
        weighted_sum (evalB.piecesBB PieceKind.king ∩ evalB.colorBB Color.white) evalT.whiteKingEnd -
          weighted_sum (evalB.piecesBB PieceKind.king ∩ evalB.colorBB Color.black) evalT.blackKingEnd
      else
        weighted_sum (evalB.piecesBB PieceKind.king ∩ evalB.colorBB Color.white) evalT.whiteKingMid -
          weighted_sum (evalB.piecesBB PieceKind.king ∩ evalB.colorBB Color.black) evalT.blackKingMid) :=
  ⟨by decide, by decide, C9_evaluator evalB evalT (by decide) (by decide)⟩

end ChessGame
